import Mathlib

namespace Mementor

/-!
Shallow embedding of the mementor tool (src/mementor.go), a command-line
store of "memento" records kept in a JSON file.  The store is modelled as a
`List Memento`; each CLI operation is embedded as a pure function from the
loaded store (and the parsed command-line arguments) to `Except String`
of the sequence that would be written back, so that `.error` corresponds
exactly to the Go error paths on which `writeMementos` is never called.
Go strings are handled through their character lists so that every
definition evaluates by kernel reduction.
-/

/-- A record in mementor (Go struct `Memento`).  Go `int`/`int64` are
modelled as `Int`, with the two's-complement wraparound of Go `int`
applied (`wrap64`) wherever the source performs arithmetic on them. -/
structure Memento where
  Id : Int
  Msg : String
  Time : Int
  Priority : Int
deriving Repr, DecidableEq

instance : Inhabited Memento := ⟨⟨0, "", 0, 0⟩⟩

instance {ε α : Type} [DecidableEq ε] [DecidableEq α] :
    DecidableEq (Except ε α) := fun a b =>
  match a, b with
  | .ok x, .ok y =>
      if h : x = y then .isTrue (by rw [h]) else .isFalse (by simp [h])
  | .ok _, .error _ => .isFalse (by simp)
  | .error _, .ok _ => .isFalse (by simp)
  | .error x, .error y =>
      if h : x = y then .isTrue (by rw [h]) else .isFalse (by simp [h])

/-- The loop of Go's `sort.Search`:
`i, j := 0, n; for i < j { h := (i+j)/2; if !f(h) { i = h+1 } else { j = h } }; return i`.
The width `j - i` of the interval shrinks on every iteration, so running the
loop body `fuel ≥ j - i` times computes the loop's result; `sortSearch`
supplies `fuel = n`, the initial width. -/
def searchAux (f : Nat → Bool) : Nat → Nat → Nat → Nat
  | 0, i, _ => i
  | fuel + 1, i, j =>
    if i < j then
      let h := (i + j) / 2
      if !(f h) then searchAux f fuel (h + 1) j else searchAux f fuel i h
    else i

/-- Go `sort.Search(n, f)`. -/
def sortSearch (n : Nat) (f : Nat → Bool) : Nat :=
  searchAux f n 0 n

/-- Go `findMementoById`: binary search for the index of the record with the
given id; `(0, false)` when not found.  Inside the search the slice access
`mementos[i].Id` is modelled with `List.getD` (Go's `sort.Search` only probes
indices in `[0, count)`). -/
def findMementoById (mementos : List Memento) (id : Int) : Nat × Bool :=
  let count := mementos.length
  let n := sortSearch count (fun i => decide ((mementos.getD i default).Id ≥ id))
  if h : n < count then
    if (mementos.get ⟨n, h⟩).Id = id then (n, true) else (0, false)
  else (0, false)

/-- The store invariant from the spec: ids strictly ascending (hence unique). -/
def sortedById (l : List Memento) : Prop :=
  l.Pairwise (fun a b => a.Id < b.Id)

instance (l : List Memento) : Decidable (sortedById l) := by
  unfold sortedById; infer_instance

/-- Helper of `goSplit`: walks the characters, `acc` holding the current
segment reversed. -/
def goSplitAux (sep : Char) : List Char → List Char → List (List Char)
  | [], acc => [acc.reverse]
  | c :: cs, acc =>
      if c = sep then acc.reverse :: goSplitAux sep cs []
      else goSplitAux sep cs (c :: acc)

/-- Go `strings.Split(s, sep)` for a one-character separator: splits at every
occurrence, keeping empty segments (an empty input yields one empty segment). -/
def goSplit (s : String) (sep : Char) : List (List Char) :=
  goSplitAux sep s.data []

/-- Whether `p` is a prefix of `s`; an unanchored-trailing regex such as
Go's `^pri.*` matches a string exactly when the string starts with `pri`. -/
def startsWithChars : List Char → List Char → Bool
  | [], _ => true
  | _ :: _, [] => false
  | p :: ps, c :: cs => p = c && startsWithChars ps cs

/-- Go `strings.Join(xs, sep)`. -/
def goJoin (sep : List Char) : List (List Char) → List Char
  | [] => []
  | [x] => x
  | x :: xs => x ++ sep ++ goJoin sep xs

/-- Digit-accumulation loop of Go `strconv.ParseInt`: consumes decimal
digits, failing on any other character. -/
def parseDigits : List Char → Nat → Option Nat
  | [], acc => some acc
  | c :: cs, acc =>
      if '0' ≤ c ∧ c ≤ '9' then
        parseDigits cs (acc * 10 + (c.toNat - '0'.toNat))
      else none

/-- Go `strconv.ParseInt(s, 10, 0)`: optional sign, at least one decimal
digit, result must fit in a signed 64-bit int. -/
def goParseInt (s : List Char) : Option Int :=
  match s with
  | [] => none
  | c :: cs =>
    let (neg, ds) :=
      if c = '-' then (true, cs)
      else if c = '+' then (false, cs)
      else (false, c :: cs)
    match ds with
    | [] => none
    | _ =>
      match parseDigits ds 0 with
      | none => none
      | some n =>
        let v : Int := if neg then -(n : Int) else (n : Int)
        if -(2 ^ 63) ≤ v ∧ v < 2 ^ 63 then some v else none

/-- Two's-complement wraparound of Go's 64-bit `int`: arithmetic on Go
`int` yields the representative in `[-2^63, 2^63)` congruent modulo
`2^64`, so `(2^63 - 1) + 1` wraps to `-2^63`. -/
def wrap64 (n : Int) : Int := (n + 2 ^ 63) % 2 ^ 64 - 2 ^ 63

/-- The `lastId` variable of Go `add`: the last record's id
(`mementos[len(mementos)-1].Id`), or 0 on an empty store. -/
def lastIdOf (mementos : List Memento) : Int :=
  if mementos.length < 1 then 0
  else (mementos.getD (mementos.length - 1) default).Id

/-- Go `add`: `args` are the CLI arguments (`args[0]` is the command name),
`now` is `time.Now().Unix()`.  The message is the remaining arguments
joined with spaces (`strings.Join(args[1:], " ")`); the new id is the last
record's id plus one (`mementos[len(mementos)-1].Id + 1`), or 1 on an empty
store — computed on Go's machine `int`, so it wraps at the int64 boundary
(`wrap64`). -/
def add (mementos : List Memento) (args : List String) (now : Int) :
    Except String (List Memento) :=
  if args.length < 2 then .error "Please specify the message."
  else
    let msg : String := ⟨goJoin [' '] ((args.drop 1).map String.data)⟩
    let m : Memento := ⟨wrap64 (lastIdOf mementos + 1), msg, now, 1⟩
    .ok (mementos ++ [m])

/-- An in-range value is its own wraparound. -/
lemma wrap64_eq_self {n : Int} (h1 : -(2 ^ 63) ≤ n) (h2 : n < 2 ^ 63) :
    wrap64 n = n := by
  unfold wrap64
  omega

/-- Error message of Go `fmt.Errorf("Memento %d does not exist", id)`. -/
def notFoundError (id : Int) : String :=
  "Memento " ++ Int.repr id ++ " does not exist"

/-- Go `remove` after the id has been parsed: binary-search for the record,
fail with Not-Found if absent, else drop that slot
(`append(mementos[:n], mementos[n+1:]...)`) and persist. -/
def remove (mementos : List Memento) (id : Int) :
    Except String (List Memento) :=
  let (n, ok) := findMementoById mementos id
  if ok then .ok (mementos.take n ++ mementos.drop (n + 1))
  else .error (notFoundError id)

/-- Go `modify` after the id has been parsed; `modArg` is `args[2]`, the
`field:value` argument.  The record is looked up first, then the argument is
split on every colon.  A field matching `^pri.*` parses `mod[1]` as the new
priority; a field matching `^m.*` assigns `m.Msg = mod[0]` (the field key
itself — this is what the Go source does).  Because the slice holds
pointers (`[]*Memento`), the field assignment mutates the slice element in
place, modelled here with `List.set`. -/
def modify (mementos : List Memento) (id : Int) (modArg : String) :
    Except String (List Memento) :=
  let (n, ok) := findMementoById mementos id
  if !ok then .error (notFoundError id)
  else
    let m := mementos.getD n default
    let mod := goSplit modArg ':'
    if mod.length < 2 then
      .error "Your modification must be in the form of property:value"
    else
      let field := mod.getD 0 []
      if startsWithChars "pri".data field then
        match goParseInt (mod.getD 1 []) with
        | none => .error ("Not a number: " ++ String.mk (mod.getD 1 []))
        | some value => .ok (mementos.set n { m with Priority := value })
      else if startsWithChars "m".data field then
        .ok (mementos.set n { m with Msg := ⟨field⟩ })
      else
        .error ("You are trying to modify invalid property: " ++ String.mk field)

/-- Go `fetch`, parameterised over the randomness source: `intn` stands for
`rand.Intn`, whose contract is that `intn k < k` for `k > 0`.  Returns the
printed message, `none` when the store is empty (no output, no error). -/
def fetch (mementos : List Memento) (intn : Nat → Nat) : Option String :=
  if mementos.length < 1 then none
  else some (mementos.getD (intn mementos.length) default).Msg

/-- One mutating CLI invocation: `add` with its argument list and timestamp,
or `remove` of a parsed id. -/
inductive Op where
  | addOp (args : List String) (now : Int)
  | removeOp (id : Int)
deriving Repr

/-- Effect of one invocation on the stored sequence: on an error path the
file is not rewritten, so the store is unchanged. -/
def applyOp (mementos : List Memento) : Op → List Memento
  | .addOp args now =>
      match add mementos args now with
      | .ok l => l
      | .error _ => mementos
  | .removeOp id =>
      match remove mementos id with
      | .ok l => l
      | .error _ => mementos

/-- Effect of a sequence of mutating invocations. -/
def applyOps (mementos : List Memento) (ops : List Op) : List Memento :=
  ops.foldl applyOp mementos

/-! ### Correctness of the binary search -/

lemma getD_eq_get (l : List Memento) (n : Nat) (h : n < l.length) :
    l.getD n default = l.get ⟨n, h⟩ := by
  simp [List.getD_eq_getElem?_getD, List.getElem?_eq_getElem h]

/-- Go's `sort.Search` loop finds the boundary `k` of a predicate that is
false strictly below `k` and true from `k` up, given enough fuel. -/
lemma searchAux_spec (f : Nat → Bool) (k fuel : Nat) :
    ∀ i j : Nat, j - i ≤ fuel → i ≤ k → k ≤ j →
    (∀ m, i ≤ m → m < k → f m = false) →
    (∀ m, k ≤ m → m < j → f m = true) →
    searchAux f fuel i j = k := by
  induction fuel with
  | zero =>
    intro i j hfuel hik hkj _ _
    simp only [searchAux]
    omega
  | succ fuel ih =>
    intro i j hfuel hik hkj hlow hhigh
    simp only [searchAux]
    by_cases hij : i < j
    · simp only [if_pos hij]
      have hmid1 : i ≤ (i + j) / 2 := by omega
      have hmid2 : (i + j) / 2 < j := by omega
      by_cases hfh : f ((i + j) / 2) = true
      · have hkh : k ≤ (i + j) / 2 := by
          by_contra hc
          push_neg at hc
          rw [hlow ((i + j) / 2) hmid1 hc] at hfh
          exact Bool.false_ne_true hfh
        simp only [hfh, Bool.not_true, Bool.false_eq_true, if_false]
        exact ih i ((i + j) / 2) (by omega) hik hkh hlow
          (fun m hm hmh => hhigh m hm (by omega))
      · have hfh' : f ((i + j) / 2) = false := by
          cases hf : f ((i + j) / 2)
          · rfl
          · exact absurd hf hfh
        have hhk : (i + j) / 2 < k := by
          by_contra hc
          push_neg at hc
          rw [hhigh ((i + j) / 2) hc hmid2] at hfh'
          exact Bool.noConfusion hfh'
        simp only [hfh', Bool.not_false, if_true]
        exact ih ((i + j) / 2 + 1) j (by omega) (by omega) hkj
          (fun m hm hmk => hlow m (by omega) hmk) hhigh
    · simp only [if_neg hij]
      omega

/-- In a store sorted by id, ids are strictly monotone in the index. -/
lemma sorted_get_lt {l : List Memento} (hs : sortedById l)
    {a b : Fin l.length} (hab : a < b) :
    (l.get a).Id < (l.get b).Id :=
  List.pairwise_iff_get.mp hs a b hab

/-- On a sorted store, looking up the id of the record at index `k`
returns exactly `(k, true)`. -/
lemma findMementoById_found (l : List Memento) (hs : sortedById l)
    (k : Nat) (hk : k < l.length) :
    findMementoById l (l.get ⟨k, hk⟩).Id = (k, true) := by
  have hsearch :
      sortSearch l.length
        (fun i => decide ((l.getD i default).Id ≥ (l.get ⟨k, hk⟩).Id)) = k := by
    apply searchAux_spec _ k l.length 0 l.length (by omega) (by omega)
      (Nat.le_of_lt hk)
    · intro m _ hmk
      have hm : m < l.length := by omega
      rw [getD_eq_get l m hm]
      simp only [ge_iff_le, decide_eq_false_iff_not, not_le]
      exact sorted_get_lt hs (show (⟨m, hm⟩ : Fin l.length) < ⟨k, hk⟩ from hmk)
    · intro m hkm hm
      rw [getD_eq_get l m hm]
      simp only [ge_iff_le, decide_eq_true_eq]
      rcases Nat.eq_or_lt_of_le hkm with he | hlt
      · exact le_of_eq (by subst he; rfl)
      · exact le_of_lt (sorted_get_lt hs (show (⟨k, hk⟩ : Fin l.length) < ⟨m, hm⟩ from hlt))
  simp only [findMementoById, hsearch]
  rw [dif_pos hk]
  simp

/-- When no record has the requested id, the lookup returns `(0, false)`. -/
lemma findMementoById_not_found (l : List Memento) (id : Int)
    (habs : ∀ m ∈ l, m.Id ≠ id) :
    findMementoById l id = (0, false) := by
  simp only [findMementoById]
  split
  · split
    · rename_i hn heq
      exact absurd heq (habs _ (l.get_mem _ _))
    · rfl
  · rfl

/-- If the lookup reports success then some record has the id. -/
lemma exists_of_found {l : List Memento} {id : Int}
    (h : (findMementoById l id).2 = true) : ∃ m ∈ l, m.Id = id := by
  by_contra hc
  push_neg at hc
  rw [findMementoById_not_found l id hc] at h
  simp at h

/-- A successful lookup returns an in-range index holding the id. -/
lemma found_index {l : List Memento} {id : Int} {n : Nat}
    (h : findMementoById l id = (n, true)) :
    ∃ hn : n < l.length, (l.get ⟨n, hn⟩).Id = id := by
  simp only [findMementoById] at h
  split at h
  · split at h
    · rename_i hlt heq
      obtain ⟨h1, _⟩ := Prod.mk.injEq .. ▸ h
      exact ⟨h1 ▸ hlt, h1 ▸ heq⟩
    · simp at h
  · simp at h

/-- C4: on a store sorted ascending by id, `findMementoById` succeeds exactly
when some record carries the id, and a successful result `(n, true)` points
at the record with that id; otherwise the second component is `false`. -/
theorem findMementoById_correct (mementos : List Memento) (id : Int)
    (hs : sortedById mementos) :
    ((findMementoById mementos id).2 = true ↔ ∃ m ∈ mementos, m.Id = id) ∧
    (∀ n : Nat, findMementoById mementos id = (n, true) →
      ∃ hn : n < mementos.length, (mementos.get ⟨n, hn⟩).Id = id) := by
  refine ⟨⟨exists_of_found, ?_⟩, fun n h => found_index h⟩
  rintro ⟨m, hm, hid⟩
  obtain ⟨⟨k, hk⟩, hget⟩ := List.mem_iff_get.mp hm
  rw [← hid, ← hget, findMementoById_found mementos hs k hk]

/-- C4 witness: the lookup theorem instantiated on a concrete sorted store. -/
theorem findMementoById_correct_witness :
    (((findMementoById [⟨1, "a", 0, 1⟩, ⟨3, "b", 0, 1⟩, ⟨5, "c", 0, 1⟩] 3).2 = true ↔
      ∃ m ∈ [(⟨1, "a", 0, 1⟩ : Memento), ⟨3, "b", 0, 1⟩, ⟨5, "c", 0, 1⟩], m.Id = 3) ∧
    (∀ n : Nat,
      findMementoById [⟨1, "a", 0, 1⟩, ⟨3, "b", 0, 1⟩, ⟨5, "c", 0, 1⟩] 3 = (n, true) →
      ∃ hn : n < ([(⟨1, "a", 0, 1⟩ : Memento), ⟨3, "b", 0, 1⟩, ⟨5, "c", 0, 1⟩]).length,
        (([(⟨1, "a", 0, 1⟩ : Memento), ⟨3, "b", 0, 1⟩, ⟨5, "c", 0, 1⟩]).get ⟨n, hn⟩).Id = 3)) :=
  findMementoById_correct [⟨1, "a", 0, 1⟩, ⟨3, "b", 0, 1⟩, ⟨5, "c", 0, 1⟩] 3 (by decide)

/-! ### Sortedness preservation and the add/remove algebra -/

/-- In a sorted store the last slot (`mementos[len(mementos)-1]`, the id
`add` increments) carries the greatest id. -/
lemma sorted_le_last {l : List Memento} (hs : sortedById l) {a : Memento}
    (ha : a ∈ l) (hne : l ≠ []) :
    a.Id ≤ (l.getD (l.length - 1) default).Id := by
  obtain ⟨⟨k, hk⟩, hget⟩ := List.mem_iff_get.mp ha
  have hlen : 0 < l.length := List.length_pos.mpr hne
  have hlast : l.length - 1 < l.length := by omega
  rw [getD_eq_get l _ hlast, ← hget]
  rcases Nat.lt_or_ge k (l.length - 1) with hlt | hge
  · exact le_of_lt
      (sorted_get_lt hs (show (⟨k, hk⟩ : Fin l.length) < ⟨l.length - 1, hlast⟩ from hlt))
  · have hke : k = l.length - 1 := by omega
    subst hke
    exact le_of_eq rfl

/-- Appending a record whose id beats every existing id keeps the store
sorted. -/
lemma sorted_append {l : List Memento} (hs : sortedById l) (m : Memento)
    (hm : ∀ x ∈ l, x.Id < m.Id) : sortedById (l ++ [m]) := by
  rw [sortedById, List.pairwise_append]
  exact ⟨hs, List.pairwise_singleton _ _, fun a ha b hb => by
    rw [List.mem_singleton.mp hb]; exact hm a ha⟩

/-- When `add` succeeds, the result is the old store with one record
appended, carrying the (possibly wrapped) incremented last id. -/
lemma add_ok (mementos : List Memento) (args : List String) (now : Int)
    (hargs : 2 ≤ args.length) :
    add mementos args now =
      .ok (mementos ++
        [⟨wrap64 (lastIdOf mementos + 1),
          ⟨goJoin [' '] ((args.drop 1).map String.data)⟩, now, 1⟩]) := by
  simp only [add, if_neg (by omega : ¬args.length < 2)]

/-- In a sorted store every id is bounded by the last slot's id. -/
lemma sorted_le_lastIdOf {l : List Memento} (hs : sortedById l)
    {a : Memento} (ha : a ∈ l) : a.Id ≤ lastIdOf l := by
  have hne : l ≠ [] := List.ne_nil_of_mem ha
  have hlen : 0 < l.length := List.length_pos.mpr hne
  rw [lastIdOf, if_neg (by omega)]
  exact sorted_le_last hs ha hne

/-- Before wrapping, the id `add` assigns is strictly greater than every
id in a sorted store. -/
lemma add_id_gt {l : List Memento} (hs : sortedById l) {x : Memento}
    (hx : x ∈ l) : x.Id < lastIdOf l + 1 :=
  lt_of_le_of_lt (sorted_le_lastIdOf hs hx) (by omega)

/-- The last slot's id inherits any pointwise bounds on the store's ids
that also cover the empty-store default 0. -/
lemma lastIdOf_bounds {l : List Memento} (lo hi : Int)
    (hlo : ∀ m ∈ l, lo ≤ m.Id) (hhi : ∀ m ∈ l, m.Id ≤ hi)
    (hlo0 : lo ≤ 0) (hhi0 : 0 ≤ hi) :
    lo ≤ lastIdOf l ∧ lastIdOf l ≤ hi := by
  by_cases hne : l = []
  · subst hne
    simpa [lastIdOf] using ⟨hlo0, hhi0⟩
  · have hlen : 0 < l.length := List.length_pos.mpr hne
    have hlast : l.length - 1 < l.length := by omega
    rw [lastIdOf, if_neg (by omega), getD_eq_get _ _ hlast]
    exact ⟨hlo _ (List.get_mem _ _ _), hhi _ (List.get_mem _ _ _)⟩

/-- Sublist relation of the sequence `remove` writes: dropping one slot of
`l` (`append(l[:n], l[n+1:]...)`) yields a sublist of `l`. -/
lemma take_drop_sublist (l : List Memento) (n : Nat) :
    (l.take n ++ l.drop (n + 1)).Sublist l := by
  have h1 : (l.drop n).drop 1 = l.drop (n + 1) := by
    rw [List.drop_drop]
  have h2 : (l.drop (n + 1)).Sublist (l.drop n) := by
    rw [← h1]; exact List.drop_sublist 1 (l.drop n)
  calc (l.take n ++ l.drop (n + 1)).Sublist (l.take n ++ l.drop n) :=
        h2.append_left (l.take n)
    _ = l := List.take_append_drop n l

/-- Number of Add invocations in a sequence of operations, as an integer
for arithmetic against the int64 id bound. -/
def countAdds : List Op → Int
  | [] => 0
  | .addOp _ _ :: rest => countAdds rest + 1
  | .removeOp _ :: rest => countAdds rest

lemma countAdds_nonneg : ∀ ops : List Op, 0 ≤ countAdds ops
  | [] => le_refl 0
  | .addOp _ _ :: rest => by
      have := countAdds_nonneg rest
      rw [countAdds]; omega
  | .removeOp _ :: rest => by
      have := countAdds_nonneg rest
      rw [countAdds]; omega

lemma countAdds_cons_le (op : Op) (rest : List Op) :
    countAdds rest ≤ countAdds (op :: rest) := by
  cases op
  · rw [countAdds]; omega
  · rw [countAdds]

/-- C2 counterexample: on the Go-representable store holding the single id
`2^63 - 1` (the int64 maximum), one Add wraps the new id to `-2^63`, so the
ids of the resulting store are no longer strictly ascending. -/
theorem sorted_invariant_wrap_counterexample :
    sortedById [⟨2 ^ 63 - 1, "a", 0, 1⟩] ∧
    ¬sortedById (applyOps [⟨2 ^ 63 - 1, "a", 0, 1⟩]
      [.addOp ["add", "x"] 0]) := by
  decide

/-- One invocation preserves sortedness together with the id bounds that
rule out int64 wraparound on the Add invocations still to come: `add`
appends a strictly larger (unwrapped) id, `remove` keeps a sublist, and
error paths leave the store untouched. -/
lemma applyOp_step (mementos : List Memento) (op : Op) (rest : List Op)
    (hs : sortedById mementos)
    (hlo : ∀ m ∈ mementos, -(2 ^ 63) ≤ m.Id)
    (hhi : ∀ m ∈ mementos, m.Id + countAdds (op :: rest) ≤ 2 ^ 63 - 1)
    (hcount : countAdds (op :: rest) ≤ 2 ^ 63 - 1) :
    sortedById (applyOp mementos op) ∧
    (∀ m ∈ applyOp mementos op, -(2 ^ 63) ≤ m.Id) ∧
    (∀ m ∈ applyOp mementos op, m.Id + countAdds rest ≤ 2 ^ 63 - 1) := by
  have hc0 : 0 ≤ countAdds rest := countAdds_nonneg rest
  cases op with
  | addOp args now =>
    have hca : countAdds (Op.addOp args now :: rest) = countAdds rest + 1 :=
      rfl
    rw [hca] at hhi hcount
    by_cases hargs : args.length < 2
    · have hid : applyOp mementos (.addOp args now) = mementos := by
        simp [applyOp, add, if_pos hargs]
      rw [hid]
      exact ⟨hs, hlo, fun m hm => by have := hhi m hm; omega⟩
    · have hlb := lastIdOf_bounds (-(2 ^ 63)) (2 ^ 63 - 2 - countAdds rest)
        hlo (fun m hm => by have := hhi m hm; omega) (by omega) (by omega)
      have hw : wrap64 (lastIdOf mementos + 1) = lastIdOf mementos + 1 :=
        wrap64_eq_self (by omega) (by omega)
      have happ : applyOp mementos (.addOp args now) =
          mementos ++ [⟨lastIdOf mementos + 1,
            ⟨goJoin [' '] ((args.drop 1).map String.data)⟩, now, 1⟩] := by
        simp only [applyOp, add_ok mementos args now (by omega), hw]
      rw [happ]
      refine ⟨sorted_append hs _ (fun x hx => add_id_gt hs hx), ?_, ?_⟩
      · intro m hm
        rcases List.mem_append.mp hm with h | h
        · exact hlo m h
        · rw [List.mem_singleton.mp h]
          dsimp only
          omega
      · intro m hm
        rcases List.mem_append.mp hm with h | h
        · have := hhi m h
          omega
        · rw [List.mem_singleton.mp h]
          dsimp only
          omega
  | removeOp id =>
    have hcr : countAdds (Op.removeOp id :: rest) = countAdds rest := rfl
    rw [hcr] at hhi
    have hsub : (applyOp mementos (.removeOp id)).Sublist mementos := by
      simp only [applyOp, remove]
      rcases hfind : findMementoById mementos id with ⟨n, ok⟩
      cases ok
      · exact List.Sublist.refl mementos
      · simp only [if_pos rfl]
        exact take_drop_sublist mementos n
    exact ⟨List.Pairwise.sublist hsub hs,
      fun m hm => hlo m (hsub.subset hm),
      fun m hm => hhi m (hsub.subset hm)⟩

/-- C2 amended: starting from a store whose ids are strictly ascending,
Go-representable, and far enough below the int64 maximum that none of the
sequence's Add invocations can wrap, any sequence of Add and Remove
invocations leaves the ids strictly ascending and unique. -/
theorem applyOps_preserves_sorted (mementos : List Memento) (ops : List Op)
    (hs : sortedById mementos)
    (hlo : ∀ m ∈ mementos, -(2 ^ 63) ≤ m.Id)
    (hhi : ∀ m ∈ mementos, m.Id + countAdds ops ≤ 2 ^ 63 - 1)
    (hcount : countAdds ops ≤ 2 ^ 63 - 1) :
    sortedById (applyOps mementos ops) := by
  induction ops generalizing mementos with
  | nil => exact hs
  | cons op rest ih =>
    obtain ⟨h1, h2, h3⟩ := applyOp_step mementos op rest hs hlo hhi hcount
    exact ih (applyOp mementos op) h1 h2 h3
      (le_trans (countAdds_cons_le op rest) hcount)

/-- C2 witness: the invariant theorem run on a concrete store and a concrete
mixed sequence of adds and removes (including failing ones). -/
theorem applyOps_preserves_sorted_witness :
    sortedById (applyOps [⟨1, "a", 0, 1⟩, ⟨3, "b", 0, 1⟩]
      [.addOp ["add", "hello"] 7, .removeOp 1, .removeOp 99,
       .addOp ["add", "x", "y"] 9]) :=
  applyOps_preserves_sorted [⟨1, "a", 0, 1⟩, ⟨3, "b", 0, 1⟩]
    [.addOp ["add", "hello"] 7, .removeOp 1, .removeOp 99,
     .addOp ["add", "x", "y"] 9] (by decide) (by decide) (by decide)
    (by decide)

/-- C3 counterexample: on the store holding the int64 maximum id
`2^63 - 1`, `add` assigns the wrapped id `-2^63`, which is not the maximum
existing id plus one. -/
theorem add_wrap_counterexample :
    add [⟨2 ^ 63 - 1, "a", 0, 1⟩] ["add", "x"] 5 =
      .ok [⟨2 ^ 63 - 1, "a", 0, 1⟩, ⟨-(2 ^ 63), "x", 5, 1⟩] ∧
    (-(2 ^ 63) : Int) ≠ (2 ^ 63 - 1) + 1 := by
  decide

/-- When the incremented last id cannot wrap, `add` appends it unwrapped. -/
lemma add_ok_no_wrap (mementos : List Memento) (args : List String)
    (now : Int) (hargs : 2 ≤ args.length)
    (hlo : ∀ m ∈ mementos, -(2 ^ 63) ≤ m.Id)
    (hhi : ∀ m ∈ mementos, m.Id < 2 ^ 63 - 1) :
    add mementos args now =
      .ok (mementos ++
        [⟨lastIdOf mementos + 1,
          ⟨goJoin [' '] ((args.drop 1).map String.data)⟩, now, 1⟩]) := by
  have hlb := lastIdOf_bounds (-(2 ^ 63)) (2 ^ 63 - 2) hlo
    (fun m hm => by have := hhi m hm; omega) (by omega) (by omega)
  rw [add_ok mementos args now hargs,
    wrap64_eq_self (n := lastIdOf mementos + 1) (by omega) (by omega)]

/-- C3 amended: on a sorted store of Go-representable ids whose maximum id
is below the int64 maximum (so the increment cannot wrap), `add` with a
message argument appends one record carrying the joined message, the
current timestamp and priority 1, whose id is the maximum existing id plus
one — or 1 on an empty store. -/
theorem add_assigns_max_plus_one (mementos : List Memento) (args : List String)
    (now : Int) (hs : sortedById mementos) (hargs : 2 ≤ args.length)
    (hlo : ∀ m ∈ mementos, -(2 ^ 63) ≤ m.Id)
    (hhi : ∀ m ∈ mementos, m.Id < 2 ^ 63 - 1) :
    ∃ m : Memento, add mementos args now = .ok (mementos ++ [m]) ∧
      m.Msg = ⟨goJoin [' '] ((args.drop 1).map String.data)⟩ ∧
      m.Time = now ∧ m.Priority = 1 ∧
      ((mementos = [] ∧ m.Id = 1) ∨
        ∃ mm ∈ mementos, (∀ x ∈ mementos, x.Id ≤ mm.Id) ∧ m.Id = mm.Id + 1) := by
  refine ⟨_, add_ok_no_wrap mementos args now hargs hlo hhi, rfl, rfl, rfl, ?_⟩
  by_cases hne : mementos = []
  · subst hne
    exact Or.inl ⟨rfl, rfl⟩
  · right
    have hlen : 0 < mementos.length := List.length_pos.mpr hne
    have hlast : mementos.length - 1 < mementos.length := by omega
    refine ⟨mementos.getD (mementos.length - 1) default, ?_, ?_, ?_⟩
    · rw [getD_eq_get _ _ hlast]
      exact List.get_mem _ _ _
    · exact fun x hx => sorted_le_last hs hx hne
    · simp only [lastIdOf, if_neg (by omega : ¬mementos.length < 1)]

/-- C3 witness: adding to the concrete sorted store `[id 1, id 3]`. -/
theorem add_assigns_max_plus_one_witness :
    ∃ m : Memento,
      add [⟨1, "a", 0, 1⟩, ⟨3, "b", 0, 1⟩] ["add", "hi", "there"] 42 =
        .ok ([⟨1, "a", 0, 1⟩, ⟨3, "b", 0, 1⟩] ++ [m]) ∧
      m.Msg = ⟨goJoin [' ']
        (((["add", "hi", "there"] : List String).drop 1).map String.data)⟩ ∧
      m.Time = 42 ∧ m.Priority = 1 ∧
      (([(⟨1, "a", 0, 1⟩ : Memento), ⟨3, "b", 0, 1⟩] = [] ∧ m.Id = 1) ∨
        ∃ mm ∈ [(⟨1, "a", 0, 1⟩ : Memento), ⟨3, "b", 0, 1⟩],
          (∀ x ∈ [(⟨1, "a", 0, 1⟩ : Memento), ⟨3, "b", 0, 1⟩], x.Id ≤ mm.Id) ∧
          m.Id = mm.Id + 1) :=
  add_assigns_max_plus_one [⟨1, "a", 0, 1⟩, ⟨3, "b", 0, 1⟩]
    ["add", "hi", "there"] 42 (by decide) (by decide) (by decide) (by decide)

/-- Looking up the id of a record appended above a sorted store lands on the
appended slot. -/
lemma find_appended {l : List Memento} (hs : sortedById l) (m : Memento)
    (hm : ∀ x ∈ l, x.Id < m.Id) :
    findMementoById (l ++ [m]) m.Id = (l.length, true) := by
  have hs' : sortedById (l ++ [m]) := sorted_append hs m hm
  have hlen : l.length < (l ++ [m]).length := by simp
  have hget : (l ++ [m]).get ⟨l.length, hlen⟩ = m := by
    rw [List.get_eq_getElem, List.getElem_append_right (Nat.le_refl _)]
    simp
  calc findMementoById (l ++ [m]) m.Id
      = findMementoById (l ++ [m]) ((l ++ [m]).get ⟨l.length, hlen⟩).Id := by
        rw [hget]
    _ = (l.length, true) := findMementoById_found _ hs' _ hlen

/-- C6 counterexample: on the store holding the int64 maximum id, `add`
appends the wrapped id `-2^63` below the existing id; the store is no
longer sorted, the binary search cannot find the new id, and `remove` of
it fails with Not-Found instead of restoring the prior sequence. -/
theorem add_remove_wrap_counterexample :
    add [⟨2 ^ 63 - 1, "a", 0, 1⟩] ["add", "x"] 5 =
      .ok ([⟨2 ^ 63 - 1, "a", 0, 1⟩] ++ [⟨-(2 ^ 63), "x", 5, 1⟩]) ∧
    remove ([⟨2 ^ 63 - 1, "a", 0, 1⟩] ++ [⟨-(2 ^ 63), "x", 5, 1⟩])
        (-(2 ^ 63)) = .error (notFoundError (-(2 ^ 63))) := by
  decide

/-- C6 amended: on a sorted store of Go-representable ids whose maximum id
is below the int64 maximum (so the fresh id cannot wrap), `add` followed by
`remove` of the freshly assigned id restores the prior sequence exactly. -/
theorem add_remove_roundtrip (mementos : List Memento) (args : List String)
    (now : Int) (hs : sortedById mementos) (hargs : 2 ≤ args.length)
    (hlo : ∀ m ∈ mementos, -(2 ^ 63) ≤ m.Id)
    (hhi : ∀ m ∈ mementos, m.Id < 2 ^ 63 - 1) :
    ∃ m : Memento, add mementos args now = .ok (mementos ++ [m]) ∧
      remove (mementos ++ [m]) m.Id = .ok mementos := by
  refine ⟨_, add_ok_no_wrap mementos args now hargs hlo hhi, ?_⟩
  rw [remove, find_appended hs _ (fun x hx => add_id_gt hs hx)]
  dsimp only
  rw [if_pos rfl]
  have hdrop : (mementos ++
      [(⟨lastIdOf mementos + 1,
        ⟨goJoin [' '] ((args.drop 1).map String.data)⟩, now, 1⟩ : Memento)]).drop
      (mementos.length + 1) = [] := by
    apply List.drop_eq_nil_of_le
    simp
  rw [hdrop, List.append_nil, List.take_left]

/-- C6 witness: the round trip run on the concrete sorted store
`[id 1, id 3]`. -/
theorem add_remove_roundtrip_witness :
    ∃ m : Memento,
      add [⟨1, "a", 0, 1⟩, ⟨3, "b", 0, 1⟩] ["add", "hi"] 42 =
        .ok ([⟨1, "a", 0, 1⟩, ⟨3, "b", 0, 1⟩] ++ [m]) ∧
      remove ([⟨1, "a", 0, 1⟩, ⟨3, "b", 0, 1⟩] ++ [m]) m.Id =
        .ok [⟨1, "a", 0, 1⟩, ⟨3, "b", 0, 1⟩] :=
  add_remove_roundtrip [⟨1, "a", 0, 1⟩, ⟨3, "b", 0, 1⟩] ["add", "hi"] 42
    (by decide) (by decide) (by decide) (by decide)

/-! ### Error paths and the modify operation -/

/-- C5: on an id no record carries, both `remove` and `modify` stop with the
Not-Found error.  In the embedding `.error` is exactly the Go path that
returns before `writeMementos`, so the stored sequence is untouched. -/
theorem notFound_no_write (mementos : List Memento) (id : Int) (modArg : String)
    (habs : ∀ m ∈ mementos, m.Id ≠ id) :
    remove mementos id = .error (notFoundError id) ∧
    modify mementos id modArg = .error (notFoundError id) := by
  constructor
  · rw [remove, findMementoById_not_found mementos id habs]
    rfl
  · rw [modify, findMementoById_not_found mementos id habs]
    rfl

/-- C5 witness: removing and modifying the absent id 2. -/
theorem notFound_no_write_witness :
    remove [⟨1, "a", 0, 1⟩, ⟨3, "b", 0, 1⟩] 2 = .error (notFoundError 2) ∧
    modify [⟨1, "a", 0, 1⟩, ⟨3, "b", 0, 1⟩] 2 "priority:5" =
      .error (notFoundError 2) :=
  notFound_no_write [⟨1, "a", 0, 1⟩, ⟨3, "b", 0, 1⟩] 2 "priority:5" (by decide)

/-- Core of the priority branch of `modify`: on a sorted store, modifying
the record at index `k` with an argument that splits into a `pri…` field,
a numeric segment `s`, and arbitrary further segments, replaces only that
record's priority with the parsed value of `s`. -/
lemma modify_priority_core (mementos : List Memento) (k : Nat)
    (hk : k < mementos.length) (modArg : String) (field s : List Char)
    (rest : List (List Char)) (v : Int) (hs : sortedById mementos)
    (hsplit : goSplit modArg ':' = field :: s :: rest)
    (hfield : startsWithChars "pri".data field = true)
    (hval : goParseInt s = some v) :
    modify mementos (mementos.get ⟨k, hk⟩).Id modArg =
      .ok (mementos.set k { mementos.get ⟨k, hk⟩ with Priority := v }) := by
  rw [modify, findMementoById_found mementos hs k hk]
  dsimp only
  rw [if_neg (by simp), hsplit]
  rw [if_neg (by simp)]
  simp only [List.getD_cons_zero, List.getD_cons_succ, hfield, if_pos rfl,
    hval, getD_eq_get mementos k hk]
  rw [if_pos trivial]

/-- C7: modifying an existing record's priority with a numeric value sets
exactly that priority: the record's message, id and creation timestamp are
unchanged and every other record of the store is unchanged. -/
theorem modify_priority_frame (mementos : List Memento) (k : Nat)
    (hk : k < mementos.length) (modArg : String) (field s : List Char)
    (v : Int) (hs : sortedById mementos)
    (hsplit : goSplit modArg ':' = [field, s])
    (hfield : startsWithChars "pri".data field = true)
    (hval : goParseInt s = some v) :
    ∃ l', modify mementos (mementos.get ⟨k, hk⟩).Id modArg = .ok l' ∧
      l' = mementos.set k { mementos.get ⟨k, hk⟩ with Priority := v } ∧
      l'.length = mementos.length ∧
      (∀ j, j ≠ k → l'.getD j default = mementos.getD j default) ∧
      (l'.getD k default).Priority = v ∧
      (l'.getD k default).Msg = (mementos.get ⟨k, hk⟩).Msg ∧
      (l'.getD k default).Id = (mementos.get ⟨k, hk⟩).Id ∧
      (l'.getD k default).Time = (mementos.get ⟨k, hk⟩).Time := by
  refine ⟨_, modify_priority_core mementos k hk modArg field s [] v hs hsplit
    hfield hval, rfl, by simp, ?_, ?_, ?_, ?_⟩
  · intro j hj
    simp only [List.getD_eq_getElem?_getD]
    rw [List.getElem?_set_ne (fun he => hj he.symm)]
  · simp [List.getD_eq_getElem?_getD, List.getElem?_set_self, hk]
  · simp [List.getD_eq_getElem?_getD, List.getElem?_set_self, hk]
  · simp [List.getD_eq_getElem?_getD, List.getElem?_set_self, hk]

/-- C7 witness: setting the priority of record 3 in `[id 1, id 3]` to 5. -/
theorem modify_priority_frame_witness :
    ∃ l', modify [⟨1, "a", 0, 1⟩, ⟨3, "b", 7, 1⟩]
        (([(⟨1, "a", 0, 1⟩ : Memento), ⟨3, "b", 7, 1⟩]).get ⟨1, by decide⟩).Id
        "priority:5" = .ok l' ∧
      l' = ([(⟨1, "a", 0, 1⟩ : Memento), ⟨3, "b", 7, 1⟩]).set 1
        { ([(⟨1, "a", 0, 1⟩ : Memento), ⟨3, "b", 7, 1⟩]).get ⟨1, by decide⟩ with
          Priority := 5 } ∧
      l'.length = ([(⟨1, "a", 0, 1⟩ : Memento), ⟨3, "b", 7, 1⟩]).length ∧
      (∀ j, j ≠ 1 → l'.getD j default =
        ([(⟨1, "a", 0, 1⟩ : Memento), ⟨3, "b", 7, 1⟩]).getD j default) ∧
      (l'.getD 1 default).Priority = 5 ∧
      (l'.getD 1 default).Msg =
        (([(⟨1, "a", 0, 1⟩ : Memento), ⟨3, "b", 7, 1⟩]).get ⟨1, by decide⟩).Msg ∧
      (l'.getD 1 default).Id =
        (([(⟨1, "a", 0, 1⟩ : Memento), ⟨3, "b", 7, 1⟩]).get ⟨1, by decide⟩).Id ∧
      (l'.getD 1 default).Time =
        (([(⟨1, "a", 0, 1⟩ : Memento), ⟨3, "b", 7, 1⟩]).get ⟨1, by decide⟩).Time :=
  modify_priority_frame [⟨1, "a", 0, 1⟩, ⟨3, "b", 7, 1⟩] 1 (by decide)
    "priority:5" "priority".data "5".data 5 (by decide) (by decide) (by decide)
    (by decide)

/-- C1: evaluating `modify` of the message field on a concrete store shows
the divergence from the spec: the message branch assigns `m.Msg = mod[0]`,
so `modify 1 "msg:hello"` stores the field key `"msg"` instead of the
supplied value `"hello"`. -/
theorem modify_msg_stores_field_key :
    modify [⟨1, "old", 0, 1⟩] 1 "msg:hello" = .ok [⟨1, "msg", 0, 1⟩] ∧
    modify [⟨1, "old", 0, 1⟩] 1 "msg:hello" ≠ .ok [⟨1, "hello", 0, 1⟩] := by
  decide

/-- C8 counterexample: an explicitly empty message argument is accepted —
`add` with arguments `["add", ""]` appends a record with empty message and
returns no error, because the Go code only checks the argument count
(`len(args) < 2`), never the message content. -/
theorem add_empty_message_accepted :
    add [] ["add", ""] 0 = .ok [⟨1, "", 0, 1⟩] ∧
    ¬∃ e, add [] ["add", ""] 0 = .error e := by
  refine ⟨by decide, ?_⟩
  rintro ⟨e, he⟩
  rw [show add [] ["add", ""] 0 = .ok [⟨1, "", 0, 1⟩] by decide] at he
  exact Except.noConfusion he

/-- C8 amended: `add` fails exactly when no message argument is present
(fewer than two CLI arguments); it never inspects the message text itself. -/
theorem add_fails_iff_args_missing (mementos : List Memento)
    (args : List String) (now : Int) :
    (∃ e, add mementos args now = .error e) ↔ args.length < 2 := by
  unfold add
  by_cases h : args.length < 2 <;> simp [h]

/-- C9 counterexample: for a message-like field the segment between the
first and second colon is not used at all — `modify 1 "msg:a:b"` stores the
field key `"msg"`, not the second segment `"a"`. -/
theorem modify_msg_ignores_second_segment :
    modify [⟨1, "old", 0, 1⟩] 1 "msg:a:b" = .ok [⟨1, "msg", 0, 1⟩] ∧
    modify [⟨1, "old", 0, 1⟩] 1 "msg:a:b" ≠ .ok [⟨1, "a", 0, 1⟩] := by
  decide

/-- C9 amended: for priority modifications the argument is split on every
colon and only the second segment is parsed as the value; everything after
the second colon is silently discarded.  (Message-like fields ignore the
value segments entirely and store the field key, see the C1 theorem.) -/
theorem modify_priority_uses_second_segment (mementos : List Memento)
    (k : Nat) (hk : k < mementos.length) (modArg : String)
    (field s : List Char) (rest : List (List Char)) (v : Int)
    (hs : sortedById mementos)
    (hsplit : goSplit modArg ':' = field :: s :: rest)
    (hfield : startsWithChars "pri".data field = true)
    (hval : goParseInt s = some v) :
    modify mementos (mementos.get ⟨k, hk⟩).Id modArg =
      .ok (mementos.set k { mementos.get ⟨k, hk⟩ with Priority := v }) :=
  modify_priority_core mementos k hk modArg field s rest v hs hsplit hfield hval

/-- C9 amended witness: `priority:5:9` sets the priority to 5, discarding
the trailing `:9`. -/
theorem modify_priority_uses_second_segment_witness :
    modify [⟨1, "a", 0, 1⟩, ⟨3, "b", 7, 1⟩]
        (([(⟨1, "a", 0, 1⟩ : Memento), ⟨3, "b", 7, 1⟩]).get ⟨1, by decide⟩).Id
        "priority:5:9" =
      .ok (([(⟨1, "a", 0, 1⟩ : Memento), ⟨3, "b", 7, 1⟩]).set 1
        { ([(⟨1, "a", 0, 1⟩ : Memento), ⟨3, "b", 7, 1⟩]).get ⟨1, by decide⟩ with
          Priority := 5 }) :=
  modify_priority_uses_second_segment [⟨1, "a", 0, 1⟩, ⟨3, "b", 7, 1⟩] 1
    (by decide) "priority:5:9" "priority".data "5".data ["9".data] 5
    (by decide) (by decide) (by decide) (by decide)

/-- C10: on a non-empty store, under the contract of `rand.Intn` (the drawn
index is below its argument) the index `fetch` uses is strictly below the
store's length, and `fetch` prints the message of some record of the store. -/
theorem fetch_in_bounds (mementos : List Memento) (intn : Nat → Nat)
    (hne : mementos ≠ []) (hintn : ∀ k, 0 < k → intn k < k) :
    intn mementos.length < mementos.length ∧
    ∃ m ∈ mementos, fetch mementos intn = some m.Msg := by
  have hlen : 0 < mementos.length := List.length_pos.mpr hne
  have hidx := hintn _ hlen
  refine ⟨hidx, mementos.get ⟨intn mementos.length, hidx⟩,
    List.get_mem _ _ _, ?_⟩
  rw [fetch, if_neg (by omega), getD_eq_get _ _ hidx]

/-- C10 witness: fetching from a two-record store with a concrete
in-contract randomness function. -/
theorem fetch_in_bounds_witness :
    (fun k => k - 1) ([(⟨1, "a", 0, 1⟩ : Memento), ⟨3, "b", 7, 1⟩]).length <
      ([(⟨1, "a", 0, 1⟩ : Memento), ⟨3, "b", 7, 1⟩]).length ∧
    ∃ m ∈ [(⟨1, "a", 0, 1⟩ : Memento), ⟨3, "b", 7, 1⟩],
      fetch [⟨1, "a", 0, 1⟩, ⟨3, "b", 7, 1⟩] (fun k => k - 1) = some m.Msg :=
  fetch_in_bounds [⟨1, "a", 0, 1⟩, ⟨3, "b", 7, 1⟩] (fun k => k - 1)
    (by decide) (fun k hk => by show k - 1 < k; omega)

end Mementor
